import Mathlib

/-!
Verification of the Villager-Bot IPC layer (`src/bot/util/ipc.py`).

The Python module implements a framed JSON packet protocol on top of an
asyncio byte stream, a client with correlated request/response handling,
a metaclass-driven packet-handler registry, and a coordinator server with
shared-secret authentication.

This file shallowly embeds those definitions:
* bytes are `Nat` values (< 256) and a stream is a `List Nat` followed by EOF;
* `struct.pack`/`unpack` big-endian fields become explicit base-256 digit lists;
* fallible operations return `Except`/`Option`;
* the asynchronous read loop's unbounded `while` is modelled with explicit
  fuel, so that non-termination of the Python loop is expressible as
  "`none` for every fuel".
-/

set_option autoImplicit false
set_option maxRecDepth 4000

namespace VillagerIPC

/-! ### Constants from `ipc.py`

`LENGTH_LENGTH = struct.calcsize("H") = 2`; `MAX_DATA_SIZE = 65535 * 2`;
`REAL_MTU = MTU - struct.calcsize("?I") + LENGTH_LENGTH` where the native-mode
`struct.calcsize("?I")` is 8 (1 byte bool, 3 bytes padding, 4 bytes uint),
so `REAL_MTU = 1400 - 8 + 2 = 1394`. -/

def MTU : Nat := 1400

def LENGTH_LENGTH : Nat := 2

def MAX_DATA_SIZE : Nat := 65535 * 2

def CALCSIZE_BOOL_UINT : Nat := 8

def REAL_MTU : Nat := MTU - CALCSIZE_BOOL_UINT + LENGTH_LENGTH

/-! ### Big-endian fields (`struct.pack(">H", ·)` and `struct.pack(">I", ·)`) -/

/-- Model of `struct.pack(">H", n)`: two big-endian base-256 digits. -/
def u16be (n : Nat) : List Nat := [n / 256 % 256, n % 256]

/-- Model of `struct.pack(">I", n)`: four big-endian base-256 digits. -/
def u32be (n : Nat) : List Nat :=
  [n / 16777216 % 256, n / 65536 % 256, n / 256 % 256, n % 256]

/-- Model of `struct.unpack(">H", ·)` of two bytes. -/
def be16 : List Nat → Nat
  | [a, b] => a * 256 + b
  | _ => 0

/-- Model of `struct.unpack(">I", ·)` of four bytes. -/
def be32 : List Nat → Nat
  | [a, b, c, d] => ((a * 256 + b) * 256 + c) * 256 + d
  | _ => 0

/-- Model of `struct.pack(">?", b)`: a single byte, `1` for true and `0` for false. -/
def boolByte (b : Bool) : Nat := if b then 1 else 0

@[simp] theorem length_u16be (n : Nat) : (u16be n).length = 2 := rfl

@[simp] theorem length_u32be (n : Nat) : (u32be n).length = 4 := rfl

theorem be16_u16be (n : Nat) (h : n < 65536) : be16 (u16be n) = n := by
  simp only [u16be, be16]
  omega

theorem be32_u32be (n : Nat) (h : n < 4294967296) : be32 (u32be n) = n := by
  simp only [u32be, be32]
  omega

/-! ### `JsonPacketStream.write_packet`

The Python code JSON-encodes the packet, raises
`ValueError("Data is too big to send!")` when the encoded payload exceeds
`MAX_DATA_SIZE` (before any byte reaches the transport), and otherwise builds
the frame `[1-byte chunked flag][4-byte BE total length, only if chunked]
[2-byte BE chunk length][payload]`, finally handing the frame to the
transport sliced into `MTU`-sized pieces.  We model the already-encoded
payload as a byte list and return the frame, or the list of transport write
calls, under `Except`: an `Except.error` result corresponds to the exception
raised before anything is written. -/

inductive WriteError where
  | dataTooBig
  deriving DecidableEq, Repr

/-- The frame buffer built by `write_packet` once the size check has passed:
`is_chunked = len(data) > REAL_MTU`, `packet_size = min(REAL_MTU, len(data))`,
then flag byte, optional 4-byte total length, 2-byte chunk length, payload. -/
def frame_bytes (data : List Nat) : List Nat :=
  let is_chunked : Bool := decide (data.length > REAL_MTU)
  let packet_size : Nat := min REAL_MTU data.length
  [boolByte is_chunked]
    ++ (if is_chunked then u32be data.length else [])
    ++ u16be packet_size ++ data

/-- The frame built by `write_packet` for an encoded payload `data`
(raising `WriteError.dataTooBig` exactly when the oversized check fires,
before anything is handed to the transport). -/
def write_packet (data : List Nat) : Except WriteError (List Nat) :=
  if data.length > MAX_DATA_SIZE then .error .dataTooBig
  else .ok (frame_bytes data)

theorem frame_bytes_unchunked (data : List Nat) (h : data.length ≤ REAL_MTU) :
    frame_bytes data = [boolByte false] ++ u16be data.length ++ data := by
  unfold frame_bytes
  rw [decide_eq_false (by omega : ¬ data.length > REAL_MTU),
    Nat.min_eq_right h]
  simp

theorem frame_bytes_chunked (data : List Nat) (h : REAL_MTU < data.length) :
    frame_bytes data
      = [boolByte true] ++ u32be data.length ++ u16be REAL_MTU ++ data := by
  unfold frame_bytes
  rw [decide_eq_true (by omega : data.length > REAL_MTU),
    Nat.min_eq_left (Nat.le_of_lt h)]
  simp

/-- The per-call slicing `[buffer[i : i + MTU] for i in range(0, len(buffer), MTU)]`
performed before handing bytes to the transport. -/
def sliceMTU (l : List Nat) : List (List Nat) :=
  if l = [] then [] else l.take MTU :: sliceMTU (l.drop MTU)
termination_by l.length
decreasing_by
  rename_i h
  have hl : 0 < l.length := List.length_pos.mpr h
  simp only [List.length_drop, MTU]
  omega

/-- The sequence of `writer.write(...)` calls made by `write_packet`:
none at all when the size check raises. -/
def write_packet_writes (data : List Nat) : Except WriteError (List (List Nat)) :=
  (write_packet data).map sliceMTU

theorem sliceMTU_flatten (l : List Nat) : (sliceMTU l).flatten = l := by
  induction l using sliceMTU.induct with
  | case1 => simp [sliceMTU]
  | case2 l hne ih =>
    rw [sliceMTU, if_neg hne]
    simp [ih]

/-! ### `JsonPacketStream.read_packet`

The reader is a byte list followed by end-of-stream.
`StreamReader.readexactly(n)` raises `IncompleteReadError` when the stream
ends early; `StreamReader.read(n)` returns at most `n` bytes and returns the
empty byte string at end-of-stream (it does **not** raise).  The Python
chunk-accumulation loop `while len(buffer) < total_length: buffer.extend(await
self.reader.read(total_length - len(buffer)))` is modelled with a fuel bound:
`none` for every fuel value means the loop never terminates. -/

/-- Model of `await reader.readexactly(n)`: `none` models `IncompleteReadError`. -/
def readexactly (n : Nat) (s : List Nat) : Option (List Nat × List Nat) :=
  if n ≤ s.length then some (s.take n, s.drop n) else none

inductive ReadResult where
  /-- `read_packet` returned a decoded payload, leaving `rest` unread. -/
  | ok (payload rest : List Nat)
  /-- a `readexactly` call raised `IncompleteReadError`. -/
  | shortRead
  deriving DecidableEq, Repr

/-- The `while len(buffer) < total_length` accumulation loop of `read_packet`,
with fuel counting loop iterations.  Each iteration appends
`reader.read(total_length - len(buffer))`, which yields at most that many
bytes and yields nothing at end-of-stream. -/
def chunkLoop : Nat → List Nat → Nat → List Nat → Option (List Nat × List Nat)
  | fuel, buffer, total, s =>
    if buffer.length < total then
      match fuel with
      | 0 => none
      | fuel + 1 =>
        chunkLoop fuel (buffer ++ s.take (total - buffer.length)) total
          (s.drop (total - buffer.length))
    else some (buffer, s)

/-- Model of `JsonPacketStream.read_packet` on a byte stream `s` (EOF after `s`):
reads the 1-byte chunked flag, the 4-byte big-endian total length when
chunked, the 2-byte big-endian chunk length, then exactly that many payload
bytes, and when chunked keeps accumulating raw continuation bytes until
`total_length` bytes are buffered.  `some .shortRead` models an
`IncompleteReadError`; `none` means the accumulation loop is still spinning
after `fuel` iterations. -/
def read_packet (fuel : Nat) (s : List Nat) : Option ReadResult :=
  match readexactly 1 s with
  | none => some .shortRead
  | some (flagBytes, s1) =>
    let is_chunked : Bool := flagBytes.headD 0 != 0
    if is_chunked then
      match readexactly 4 s1 with
      | none => some .shortRead
      | some (tl, s2) =>
        let total_length := be32 tl
        match readexactly 2 s2 with
        | none => some .shortRead
        | some (lb, s3) =>
          let length := be16 lb
          match readexactly length s3 with
          | none => some .shortRead
          | some (buffer, s4) =>
            match chunkLoop fuel buffer total_length s4 with
            | none => none
            | some (payload, rest) => some (.ok payload rest)
    else
      match readexactly 2 s1 with
      | none => some .shortRead
      | some (lb, s2) =>
        let length := be16 lb
        match readexactly length s2 with
        | none => some .shortRead
        | some (buffer, rest) => some (.ok buffer rest)

/-! ### Helper lemmas about `readexactly` and `chunkLoop` -/

theorem readexactly_append (n : Nat) (xs rest : List Nat) (h : xs.length = n) :
    readexactly n (xs ++ rest) = some (xs, rest) := by
  subst h
  simp [readexactly]

theorem chunkLoop_done (fuel : Nat) (buffer : List Nat) (total : Nat) (s : List Nat)
    (h : total ≤ buffer.length) : chunkLoop fuel buffer total s = some (buffer, s) := by
  unfold chunkLoop
  rw [if_neg (by omega)]

theorem chunkLoop_starved (buffer : List Nat) (total : Nat) (h : buffer.length < total) :
    ∀ fuel, chunkLoop fuel buffer total [] = none := by
  intro fuel
  induction fuel with
  | zero => unfold chunkLoop; rw [if_pos h]
  | succ fuel ih => unfold chunkLoop; rw [if_pos h]; simpa using ih

theorem chunkLoop_one_step (fuel : Nat) (buffer : List Nat) (total : Nat)
    (xs rest : List Nat) (hfuel : fuel ≠ 0) (h : buffer.length < total)
    (hlen : buffer.length + xs.length = total) :
    chunkLoop fuel buffer total (xs ++ rest) = some (buffer ++ xs, rest) := by
  obtain ⟨fuel, rfl⟩ : ∃ f, fuel = f + 1 := ⟨fuel - 1, by omega⟩
  unfold chunkLoop
  rw [if_pos h]
  have htake : (xs ++ rest).take (total - buffer.length) = xs := by
    rw [List.take_append_of_le_length (by omega), List.take_of_length_le (by omega)]
  have hdrop : (xs ++ rest).drop (total - buffer.length) = rest := by
    rw [List.drop_append_of_le_length (by omega), List.drop_of_length_le (by omega)]
    simp
  rw [htake, hdrop]
  exact chunkLoop_done fuel _ _ _ (by simp; omega)

/-- Byte-level round trip of the frame codec: any payload accepted by
`write_packet` (whether below or above the chunking threshold) is recovered
exactly by `read_packet`, with one loop iteration of fuel sufficing, and the
bytes following the frame left unread. -/
theorem write_read_roundtrip (data rest : List Nat) (h : data.length ≤ MAX_DATA_SIZE)
    (frame : List Nat) (hf : write_packet data = .ok frame) :
    read_packet 1 (frame ++ rest) = some (.ok data rest) := by
  have hrm : REAL_MTU = 1394 := rfl
  have hmax : MAX_DATA_SIZE = 131070 := rfl
  unfold write_packet at hf
  rw [if_neg (by omega : ¬ data.length > MAX_DATA_SIZE)] at hf
  by_cases hc : REAL_MTU < data.length
  · rw [frame_bytes_chunked data hc] at hf
    injection hf with hf
    subst hf
    unfold read_packet
    rw [List.append_assoc, List.append_assoc, List.append_assoc,
      readexactly_append 1 [boolByte true] _ rfl]
    simp only []
    rw [readexactly_append 4 (u32be data.length) _ (length_u32be _)]
    simp only []
    rw [be32_u32be data.length (by omega)]
    rw [readexactly_append 2 (u16be REAL_MTU) _ (length_u16be _)]
    simp only []
    rw [be16_u16be REAL_MTU (by omega)]
    rw [show data ++ rest = data.take REAL_MTU ++ (data.drop REAL_MTU ++ rest) by
      rw [← List.append_assoc, List.take_append_drop]]
    rw [readexactly_append REAL_MTU (data.take REAL_MTU) _
      (by rw [List.length_take]; omega)]
    simp only []
    rw [chunkLoop_one_step 1 (data.take REAL_MTU) data.length (data.drop REAL_MTU) rest
      (by omega) (by rw [List.length_take]; omega)
      (by rw [List.length_take, List.length_drop]; omega)]
    rw [List.take_append_drop]
    simp [boolByte]
  · rw [frame_bytes_unchunked data (by omega)] at hf
    injection hf with hf
    subst hf
    unfold read_packet
    rw [List.append_assoc, List.append_assoc, readexactly_append 1 [boolByte false] _ rfl]
    simp only []
    rw [readexactly_append 2 (u16be data.length) _ (length_u16be _)]
    simp only []
    rw [be16_u16be data.length (by omega)]
    rw [readexactly_append data.length data _ rfl]
    simp [boolByte]

/-- C4: `write_packet` rejects an encoded payload strictly larger than
`MAX_DATA_SIZE = 131070` bytes by raising before anything reaches the
transport (the `Except.error` result carries no frame and no transport write
calls, so the stream is untouched), and accepts every payload of at most
131070 bytes, including exactly 131070. -/
theorem write_packet_size_gate (data : List Nat) :
    (data.length ≤ 131070 →
      write_packet data = .ok (frame_bytes data)
        ∧ write_packet_writes data = .ok (sliceMTU (frame_bytes data)))
  ∧ (131071 ≤ data.length →
      write_packet data = .error .dataTooBig
        ∧ write_packet_writes data = .error .dataTooBig) := by
  have hmax : MAX_DATA_SIZE = 131070 := rfl
  constructor
  · intro hle
    have h1 : write_packet data = .ok (frame_bytes data) := by
      unfold write_packet
      rw [if_neg (by omega)]
    exact ⟨h1, by unfold write_packet_writes; rw [h1]; rfl⟩
  · intro hgt
    have h1 : write_packet data = .error .dataTooBig := by
      unfold write_packet
      rw [if_pos (by omega)]
    exact ⟨h1, by unfold write_packet_writes; rw [h1]; rfl⟩

/-- Witness for `write_packet_size_gate`: a 131070-byte payload is accepted,
a 131071-byte payload is rejected before any write. -/
theorem write_packet_size_gate_witness :
    write_packet (List.replicate 131070 0) = .ok (frame_bytes (List.replicate 131070 0))
  ∧ write_packet (List.replicate 131071 0) = .error .dataTooBig :=
  ⟨((write_packet_size_gate (List.replicate 131070 0)).1
      (by rw [List.length_replicate])).1,
    ((write_packet_size_gate (List.replicate 131071 0)).2
      (by rw [List.length_replicate])).1⟩

/-- C5: a payload of exactly `REAL_MTU = 1394` bytes (the maximum
single-chunk size) is framed with the chunked flag byte `0` and no
total-length field, while a payload one byte larger is framed with the
chunked flag byte `1` followed by a 4-byte big-endian total-length field
holding the full payload byte length. -/
theorem write_packet_chunk_boundary (data : List Nat) :
    (data.length = REAL_MTU →
      write_packet data = .ok ([boolByte false] ++ u16be data.length ++ data))
  ∧ (data.length = REAL_MTU + 1 →
      write_packet data
          = .ok ([boolByte true] ++ u32be data.length ++ u16be REAL_MTU ++ data)
        ∧ (u32be data.length).length = 4) := by
  have hrm : REAL_MTU = 1394 := rfl
  have hmax : MAX_DATA_SIZE = 131070 := rfl
  constructor
  · intro hlen
    unfold write_packet
    rw [if_neg (by omega), frame_bytes_unchunked data (by omega)]
  · intro hlen
    refine ⟨?_, length_u32be _⟩
    unfold write_packet
    rw [if_neg (by omega), frame_bytes_chunked data (by omega)]

/-- Witness for `write_packet_chunk_boundary`: evaluated at a 1394-byte and a
1395-byte payload. -/
theorem write_packet_chunk_boundary_witness :
    write_packet (List.replicate 1394 7)
        = .ok ([boolByte false] ++ u16be (List.replicate 1394 7).length
            ++ List.replicate 1394 7)
  ∧ write_packet (List.replicate 1395 7)
        = .ok ([boolByte true] ++ u32be (List.replicate 1395 7).length
            ++ u16be REAL_MTU ++ List.replicate 1395 7) :=
  ⟨(write_packet_chunk_boundary (List.replicate 1394 7)).1
      (by rw [List.length_replicate]; rfl),
    ((write_packet_chunk_boundary (List.replicate 1395 7)).2
      (by rw [List.length_replicate]; rfl)).1⟩

/-! ### C9: a stream that ends during chunked continuation bytes -/

/-- A strict prefix of the valid chunked frame for a 1395-byte payload: the
stream ends one byte short, during the raw continuation bytes that the
accumulation loop is consuming. -/
def truncated_chunked_frame : List Nat :=
  [1] ++ u32be 1395 ++ u16be 1394 ++ List.replicate 1394 7

/-- C9 (documents the code bug): when the byte stream ends while
`read_packet` is accumulating chunked continuation bytes toward
`total_length`, the accumulation loop spins forever — `reader.read` returns
an empty byte string at end-of-stream instead of raising — so `read_packet`
neither returns a packet nor raises a transport failure, for any number of
loop iterations.  The truncated stream is a strict prefix of the valid frame
`write_packet` produces for a 1395-byte payload. -/
theorem read_packet_hangs_on_truncated_chunked_frame :
    (∃ frame, write_packet (List.replicate 1395 7) = .ok frame
       ∧ frame = truncated_chunked_frame ++ [7])
  ∧ ∀ fuel, read_packet fuel truncated_chunked_frame = none := by
  have hrm : REAL_MTU = 1394 := rfl
  constructor
  · refine ⟨_, ((write_packet_chunk_boundary (List.replicate 1395 7)).2
      (by rw [List.length_replicate]; rfl)).1, ?_⟩
    have hrep : List.replicate 1395 (7 : Nat) = List.replicate 1394 7 ++ [7] := by
      rw [show (1395 : Nat) = 1394 + 1 from rfl, List.replicate_succ']
    rw [List.length_replicate, hrep]
    unfold truncated_chunked_frame
    rw [hrm, show [boolByte true] = [(1 : Nat)] from rfl]
    simp only [List.append_assoc]
  · intro fuel
    have hgen : ∀ payload : List Nat, payload.length = 1394 →
        read_packet fuel ([1] ++ u32be 1395 ++ u16be 1394 ++ payload) = none := by
      intro payload hlen
      unfold read_packet
      rw [List.append_assoc, List.append_assoc, readexactly_append 1 [1] _ rfl]
      simp only []
      rw [readexactly_append 4 (u32be 1395) _ (length_u32be _)]
      simp only []
      rw [be32_u32be 1395 (by norm_num)]
      rw [readexactly_append 2 (u16be 1394) _ (length_u16be _)]
      simp only []
      rw [be16_u16be 1394 (by norm_num)]
      rw [← List.append_nil payload]
      rw [readexactly_append 1394 payload [] hlen]
      simp only []
      rw [chunkLoop_starved payload 1395 (by omega) fuel]
      rfl
    unfold truncated_chunked_frame
    exact hgen (List.replicate 1394 7) (by rw [List.length_replicate])

/-! ### The JSON document layer

`write_packet` serializes with `classyjson.dumps(data, cls=CustomJSONEncoder)`
and `read_packet` parses with `classyjson.loads(buffer,
object_hook=special_obj_hook)`.  The textual JSON codec itself is the Python
standard library (external to this repository); we embed the two hooks the
repository defines — `CustomJSONEncoder.default`, which serializes a `set`
as `{"_set_object": [...]}`, and `special_obj_hook`, which turns any decoded
object containing the key `"_set_object"` back into a `set` — at the level
of document trees.  `PyVal` is the universe of Python values the packets
range over (JSON scalars, lists, string-keyed dicts, and sets); `JVal` is a
plain JSON tree. -/

inductive PyVal where
  | pynone
  | pybool (b : Bool)
  | pyint (n : Int)
  | pystr (s : String)
  | pylist (xs : List PyVal)
  | pydict (kvs : List (String × PyVal))
  | pyset (xs : List PyVal)
  deriving Repr

inductive JVal where
  | jnull
  | jbool (b : Bool)
  | jint (n : Int)
  | jstr (s : String)
  | jarr (xs : List JVal)
  | jobj (kvs : List (String × JVal))
  deriving Repr

/-! Python `==` on the packet values (used by `set` deduplication). -/

mutual

def beqVal : PyVal → PyVal → Bool
  | .pynone, .pynone => true
  | .pybool a, .pybool b => a == b
  | .pyint a, .pyint b => a == b
  | .pystr a, .pystr b => a == b
  | .pylist a, .pylist b => beqValList a b
  | .pydict a, .pydict b => beqValKVs a b
  | .pyset a, .pyset b => beqValList a b
  | _, _ => false

def beqValList : List PyVal → List PyVal → Bool
  | [], [] => true
  | x :: xs, y :: ys => beqVal x y && beqValList xs ys
  | _, _ => false

def beqValKVs : List (String × PyVal) → List (String × PyVal) → Bool
  | [], [] => true
  | (k, v) :: xs, (k2, v2) :: ys => k == k2 && beqVal v v2 && beqValKVs xs ys
  | _, _ => false

end

/-- Python hashability: the scalar values may be set members; `list`, `dict`
and `set` are unhashable. -/
def hashable : PyVal → Bool
  | .pylist _ => false
  | .pydict _ => false
  | .pyset _ => false
  | _ => true

/-- Membership test with Python `==`: some element of `l` equals `x`. -/
def memBVal (x : PyVal) (l : List PyVal) : Bool := l.any (fun a => beqVal a x)

/-- Duplicate-freedom with Python `==`: no element equals a later one. -/
def nodupBVal : List PyVal → Bool
  | [] => true
  | x :: xs => !(xs.any (fun y => beqVal x y)) && nodupBVal xs

/-- Model of `set(l)` deduplication for a list of hashable values: inserts the
elements left to right, skipping any element already present (Python sets
are unordered; we keep the deduplicated element list as the
representation). -/
def setFold (acc : List PyVal) : List PyVal → List PyVal
  | [] => acc
  | x :: xs => if memBVal x acc then setFold acc xs else setFold (acc ++ [x]) xs

/-- Model of `set(l)` for a list of hashable values. -/
def setOfList (l : List PyVal) : List PyVal := setFold [] l

/-! ### The two JSON hooks from `ipc.py`, at document-tree level -/

/-! Model of `CustomJSONEncoder.default` composed with `json.dumps`: the JSON tree
actually serialized for a packet value.  A `set` becomes the object
`{"_set_object": [...]}`; everything else maps structurally. -/

mutual

def encodeVal : PyVal → JVal
  | .pynone => .jnull
  | .pybool b => .jbool b
  | .pyint n => .jint n
  | .pystr s => .jstr s
  | .pylist xs => .jarr (encodeValList xs)
  | .pydict kvs => .jobj (encodeValKVs kvs)
  | .pyset xs => .jobj [("_set_object", .jarr (encodeValList xs))]

def encodeValList : List PyVal → List JVal
  | [] => []
  | x :: xs => encodeVal x :: encodeValList xs

def encodeValKVs : List (String × PyVal) → List (String × JVal)
  | [] => []
  | (k, v) :: kvs => (k, encodeVal v) :: encodeValKVs kvs

end

/-- Python `dict` update `d[k] = v`: replaces the value in place if the key
exists, appends otherwise. -/
def dictInsert (kvs : List (String × PyVal)) (k : String) (v : PyVal) :
    List (String × PyVal) :=
  if (kvs.map Prod.fst).contains k
  then kvs.map (fun p => if p.1 == k then (p.1, v) else p)
  else kvs ++ [(k, v)]

/-- The `dict` that `json.loads` builds from the parsed key/value pairs of a
JSON object (later duplicate keys overwrite earlier values) before handing it
to `object_hook`. -/
def dictFromPairs (l : List (String × PyVal)) : List (String × PyVal) :=
  l.foldl (fun acc p => dictInsert acc p.1 p.2) []

/-- Model of `special_obj_hook` from `ipc.py`: an object containing the key
`"_set_object"` becomes `set(dct["_set_object"])`; any other object is
returned unchanged.  `set(·)` is modelled for list arguments of hashable
values (Python raises `TypeError` otherwise, modelled as `none`). -/
def special_obj_hook (kvs : List (String × PyVal)) : Option PyVal :=
  if (kvs.map Prod.fst).contains "_set_object" then
    match List.lookup "_set_object" kvs.reverse with
    | some (.pylist xs) =>
      if xs.all hashable then some (.pyset (setOfList xs)) else none
    | _ => none
  else some (.pydict kvs)

/-! Model of `json.loads(..., object_hook=special_obj_hook)`: structural decoding with
the hook applied to every object, innermost first. -/

mutual

def decodeVal : JVal → Option PyVal
  | .jnull => some .pynone
  | .jbool b => some (.pybool b)
  | .jint n => some (.pyint n)
  | .jstr s => some (.pystr s)
  | .jarr xs => (decodeValList xs).map PyVal.pylist
  | .jobj kvs =>
    (decodeValKVs kvs).bind (fun ps => special_obj_hook (dictFromPairs ps))

def decodeValList : List JVal → Option (List PyVal)
  | [] => some []
  | x :: xs =>
    (decodeVal x).bind (fun v => (decodeValList xs).map (fun vs => v :: vs))

def decodeValKVs : List (String × JVal) → Option (List (String × PyVal))
  | [] => some []
  | (k, v) :: kvs =>
    (decodeVal v).bind (fun pv =>
      (decodeValKVs kvs).map (fun ps => (k, pv) :: ps))

end

/-! The packets the round-trip claim ranges over, as realizable in Python and
avoiding the reserved sentinel key: every dict has distinct keys and never
uses the key `"_set_object"`; every set holds distinct hashable values. -/

mutual

def okVal : PyVal → Bool
  | .pynone => true
  | .pybool _ => true
  | .pyint _ => true
  | .pystr _ => true
  | .pylist xs => okValList xs
  | .pydict kvs =>
    !((kvs.map Prod.fst).contains "_set_object")
      && decide (kvs.map Prod.fst).Nodup && okValKVs kvs
  | .pyset xs => xs.all hashable && nodupBVal xs

def okValList : List PyVal → Bool
  | [] => true
  | x :: xs => okVal x && okValList xs

def okValKVs : List (String × PyVal) → Bool
  | [] => true
  | (_, v) :: kvs => okVal v && okValKVs kvs

end

/-! ### Round-trip lemmas for the document layer -/

theorem foldl_dictInsert (l : List (String × PyVal)) :
    ∀ acc : List (String × PyVal),
      (acc.map Prod.fst ++ l.map Prod.fst).Nodup →
      l.foldl (fun acc p => dictInsert acc p.1 p.2) acc = acc ++ l := by
  induction l with
  | nil => intro acc _; simp
  | cons p l ih =>
    intro acc h
    obtain ⟨k, v⟩ := p
    simp only [List.map_cons, List.foldl_cons] at h ⊢
    have hk : k ∉ acc.map Prod.fst := by
      intro hmem
      rcases List.nodup_append.mp h with ⟨h1, h2, hdisj⟩
      exact hdisj hmem (List.mem_cons_self _ _)
    have hins : dictInsert acc k v = acc ++ [(k, v)] := by
      unfold dictInsert
      rw [if_neg (by simpa using hk)]
    rw [hins, ih (acc ++ [(k, v)]) (by simpa [List.append_assoc] using h)]
    simp

theorem dictFromPairs_eq_self (l : List (String × PyVal))
    (h : (l.map Prod.fst).Nodup) : dictFromPairs l = l := by
  unfold dictFromPairs
  rw [foldl_dictInsert l [] (by simpa using h)]
  simp

theorem setFold_nodup : ∀ xs acc, (∀ y ∈ xs, memBVal y acc = false) →
    nodupBVal xs = true → setFold acc xs = acc ++ xs := by
  intro xs
  induction xs with
  | nil => intro acc _ _; simp [setFold]
  | cons x xs ih =>
    intro acc hacc h
    simp only [nodupBVal, Bool.and_eq_true, Bool.not_eq_true'] at h
    rw [setFold, if_neg (by rw [hacc x (List.mem_cons_self _ _)]; simp)]
    rw [ih (acc ++ [x]) ?later h.2]
    · simp
    · intro y hy
      unfold memBVal
      rw [List.any_append]
      have h1 : memBVal y acc = false := hacc y (List.mem_cons_of_mem _ hy)
      unfold memBVal at h1
      rw [h1]
      have h2 : beqVal x y = false := by
        simpa using List.any_eq_false.mp h.1 y hy
      simp [h2]

theorem setOfList_eq_self (xs : List PyVal) (h : nodupBVal xs = true) :
    setOfList xs = xs := by
  unfold setOfList
  rw [setFold_nodup xs [] (fun y _ => rfl) h]
  simp

theorem special_obj_hook_plain (kvs : List (String × PyVal))
    (h : (kvs.map Prod.fst).contains "_set_object" = false) :
    special_obj_hook kvs = some (.pydict kvs) := by
  unfold special_obj_hook
  rw [if_neg (by rw [h]; simp)]

theorem okVal_of_hashable (v : PyVal) (h : hashable v = true) : okVal v = true := by
  cases v <;> simp_all [hashable, okVal]

theorem okValList_of_all_hashable :
    ∀ xs : List PyVal, xs.all hashable = true → okValList xs = true := by
  intro xs hall
  induction xs with
  | nil => rfl
  | cons x xs ih =>
    simp only [List.all_cons, Bool.and_eq_true] at hall
    simp only [okValList, Bool.and_eq_true]
    exact ⟨okVal_of_hashable x hall.1, ih hall.2⟩

mutual

theorem decode_encode_val : ∀ p, okVal p = true → decodeVal (encodeVal p) = some p
  | .pynone, _ => rfl
  | .pybool b, _ => rfl
  | .pyint n, _ => rfl
  | .pystr s, _ => rfl
  | .pylist xs, h => by
    simp only [okVal] at h
    simp only [encodeVal, decodeVal]
    rw [decode_encode_list xs h]
    rfl
  | .pydict kvs, h => by
    simp only [okVal, Bool.and_eq_true, Bool.not_eq_true', decide_eq_true_eq] at h
    simp only [encodeVal, decodeVal]
    rw [decode_encode_kvs kvs h.2]
    simp only [Option.some_bind]
    rw [dictFromPairs_eq_self kvs h.1.2]
    exact special_obj_hook_plain kvs h.1.1
  | .pyset xs, h => by
    simp only [okVal, Bool.and_eq_true] at h
    have h1 : decodeValList (encodeValList xs) = some xs :=
      decode_encode_list xs (okValList_of_all_hashable xs h.1)
    have h2 : decodeVal (.jarr (encodeValList xs)) = some (.pylist xs) := by
      simp only [decodeVal]
      rw [h1]
      rfl
    have h3 : decodeValKVs [("_set_object", .jarr (encodeValList xs))]
        = some [("_set_object", .pylist xs)] := by
      simp only [decodeValKVs]
      rw [h2]
      rfl
    simp only [encodeVal, decodeVal]
    rw [h3]
    simp only [Option.some_bind]
    rw [show dictFromPairs [("_set_object", PyVal.pylist xs)]
        = [("_set_object", PyVal.pylist xs)] from rfl]
    unfold special_obj_hook
    rw [if_pos (by simp)]
    rw [show List.lookup "_set_object" [("_set_object", PyVal.pylist xs)].reverse
        = some (PyVal.pylist xs) from rfl]
    simp only []
    rw [h.1, if_pos rfl, setOfList_eq_self xs h.2]

theorem decode_encode_list :
    ∀ xs, okValList xs = true → decodeValList (encodeValList xs) = some xs
  | [], _ => rfl
  | x :: xs, h => by
    simp only [okValList, Bool.and_eq_true] at h
    simp only [encodeValList, decodeValList]
    rw [decode_encode_val x h.1, decode_encode_list xs h.2]
    rfl

theorem decode_encode_kvs :
    ∀ kvs, okValKVs kvs = true → decodeValKVs (encodeValKVs kvs) = some kvs
  | [], _ => rfl
  | (k, v) :: kvs, h => by
    simp only [okValKVs, Bool.and_eq_true] at h
    simp only [encodeValKVs, decodeValKVs]
    rw [decode_encode_val v h.1, decode_encode_kvs kvs h.2]
    rfl

end

/-! ### C1: packet round trip -/

/-- C1 (amended): for every packet value over scalars, sequences,
mappings and sets that is realizable in Python and in which no mapping uses
the reserved key `"_set_object"`, the serialized document decodes back to
exactly the original packet — sets going out as `{"_set_object": [...]}` and
coming back as sets — and for every encoded payload of at most
`MAX_DATA_SIZE` bytes the framed bytes produced by `write_packet` are decoded
by `read_packet` back to exactly that payload, both below and above the
single-chunk threshold. -/
theorem packet_roundtrip (p : PyVal) (hp : okVal p = true)
    (data rest : List Nat) (hd : data.length ≤ MAX_DATA_SIZE)
    (frame : List Nat) (hf : write_packet data = .ok frame) :
    decodeVal (encodeVal p) = some p
      ∧ read_packet 1 (frame ++ rest) = some (.ok data rest) :=
  ⟨decode_encode_val p hp, write_read_roundtrip data rest hd frame hf⟩

/-- A packet with scalar, sequence, mapping and set fields. -/
def demo_packet : PyVal :=
  .pydict [("type", .pyint 10), ("id", .pystr "c0"),
    ("seq", .pylist [.pyint 1, .pynone, .pybool true]),
    ("map", .pydict [("k", .pystr "v")]),
    ("tags", .pyset [.pyint 1, .pyint 2])]

/-- Witness for `packet_roundtrip`: a concrete packet with scalar, sequence,
mapping and set fields round-trips, and a concrete 3-byte payload
frame-round-trips. -/
theorem packet_roundtrip_witness :
    decodeVal (encodeVal demo_packet) = some demo_packet
      ∧ read_packet 1 (frame_bytes [123, 34, 125] ++ []) = some (.ok [123, 34, 125] []) :=
  packet_roundtrip demo_packet rfl [123, 34, 125] [] (by decide) (frame_bytes [123, 34, 125]) rfl

/-- A JSON-compatible packet (only scalar, sequence and mapping fields, no
set values at all) whose inner mapping happens to use the key
`"_set_object"`. -/
def sentinel_packet : PyVal :=
  .pydict [("type", .pyint 10),
    ("data", .pydict [("_set_object", .pylist [.pyint 1])])]

/-- C1 counterexample: the claim fails as stated, because
`special_obj_hook` fires on *every* decoded object containing the key
`"_set_object"`.  A genuine mapping `{"_set_object": [1]}` comes back as the
set `{1}`, so `decode(encode(p)) ≠ p` for this JSON-compatible packet even
though its encoded payload is far below 131070 bytes. -/
theorem sentinel_mapping_breaks_roundtrip :
    decodeVal (encodeVal sentinel_packet)
        = some (.pydict [("type", .pyint 10), ("data", .pyset [.pyint 1])])
      ∧ decodeVal (encodeVal sentinel_packet) ≠ some sentinel_packet := by
  refine ⟨rfl, ?_⟩
  intro hcontra
  rw [show decodeVal (encodeVal sentinel_packet)
      = some (.pydict [("type", .pyint 10), ("data", .pyset [.pyint 1])]) from rfl] at hcontra
  simp only [Option.some.injEq, sentinel_packet] at hcontra
  simp at hcontra

/-! ### C3: `PacketHandlerRegistryMeta.__new__`

When a registry class is constructed, the metaclass walks
`reversed(new.__mro__)` — most general ancestor first, the new class last —
and registers every `PacketHandler` object found in each class `__dict__`
(in declaration order).  If the packet type is already registered it raises
`ValueError` immediately.  We model packet types and handler functions as
`Nat` identifiers; the ancestry is the reversed-MRO list of per-class
declaration lists. -/

inductive RegError where
  | duplicateHandler (packet_type : Nat)
  deriving DecidableEq, Repr

/-- One iteration of the registration loop body: raise if the type is
taken, else add the entry. -/
def registerHandler (acc : Except RegError (List (Nat × Nat))) (pt handler : Nat) :
    Except RegError (List (Nat × Nat)) :=
  match acc with
  | .error e => .error e
  | .ok d =>
    if (d.map Prod.fst).contains pt then .error (.duplicateHandler pt)
    else .ok (d ++ [(pt, handler)])

/-- Model of `__packet_handlers__` as built by `PacketHandlerRegistryMeta.__new__`
from the reversed-MRO list of per-class handler declarations. -/
def packet_handlers_of_mro (classes : List (List (Nat × Nat))) :
    Except RegError (List (Nat × Nat)) :=
  classes.foldl (fun acc cls => cls.foldl (fun a p => registerHandler a p.1 p.2) acc)
    (.ok [])

theorem foldl_registerHandler_error (l : List (Nat × Nat)) (e : RegError) :
    l.foldl (fun a p => registerHandler a p.1 p.2) (.error e) = .error e := by
  induction l with
  | nil => rfl
  | cons p l ih => simpa [registerHandler] using ih

theorem foldl_registerHandler_ok (l : List (Nat × Nat)) :
    ∀ d : List (Nat × Nat), ((d.map Prod.fst) ++ (l.map Prod.fst)).Nodup →
      l.foldl (fun a p => registerHandler a p.1 p.2) (.ok d) = .ok (d ++ l) := by
  induction l with
  | nil => intro d _; simp
  | cons p l ih =>
    intro d h
    obtain ⟨pt, hd⟩ := p
    simp only [List.map_cons, List.foldl_cons] at h ⊢
    have hpt : pt ∉ d.map Prod.fst := by
      intro hmem
      rcases List.nodup_append.mp h with ⟨_, _, hdisj⟩
      exact hdisj hmem (List.mem_cons_self _ _)
    rw [show registerHandler (.ok d) pt hd = .ok (d ++ [(pt, hd)]) by
      simp only [registerHandler]
      rw [if_neg (by simpa using hpt)]]
    rw [ih (d ++ [(pt, hd)]) (by simpa [List.append_assoc] using h)]
    simp

theorem foldl_registerHandler_dup (l : List (Nat × Nat)) :
    ∀ d : List (Nat × Nat), (d.map Prod.fst).Nodup →
      ¬((d.map Prod.fst) ++ (l.map Prod.fst)).Nodup →
      ∃ pt, l.foldl (fun a p => registerHandler a p.1 p.2) (.ok d)
        = .error (.duplicateHandler pt) := by
  induction l with
  | nil => intro d hd h; exact absurd (by simpa using hd) h
  | cons p l ih =>
    intro d hd h
    obtain ⟨pt, hdl⟩ := p
    simp only [List.map_cons, List.foldl_cons]
    by_cases hmem : pt ∈ d.map Prod.fst
    · refine ⟨pt, ?_⟩
      rw [show registerHandler (.ok d) pt hdl = .error (.duplicateHandler pt) by
        simp only [registerHandler]
        rw [if_pos (by simpa using hmem)]]
      exact foldl_registerHandler_error l _
    · rw [show registerHandler (.ok d) pt hdl = .ok (d ++ [(pt, hdl)]) by
        simp only [registerHandler]
        rw [if_neg (by simpa using hmem)]]
      refine ih (d ++ [(pt, hdl)]) ?_ ?_
      · simp only [List.map_append, List.map_cons, List.map_nil]
        rw [List.nodup_append]
        refine ⟨hd, List.nodup_singleton pt, ?_⟩
        intro a ha hb
        simp only [List.mem_singleton] at hb
        subst hb
        exact hmem ha
      · intro hcon
        apply h
        simp only [List.map_cons, List.map_append, List.map_nil] at hcon ⊢
        simpa [List.append_assoc] using hcon

/-- C3 (amended): handler declarations are collected by walking the
ancestry from most general to most specific, but a more specific declaration
never overrides a more general one: any second declaration for a packet type
already registered — whether in a subclass or in an unrelated class at the
same specificity — raises `ValueError` at class-construction (startup) time.
When every declared packet type is distinct across the whole ancestry,
construction succeeds and the table holds exactly those declarations. -/
theorem handler_registry_collection (classes : List (List (Nat × Nat))) :
    (((classes.flatten).map Prod.fst).Nodup →
      packet_handlers_of_mro classes = .ok classes.flatten)
  ∧ (¬((classes.flatten).map Prod.fst).Nodup →
      ∃ pt, packet_handlers_of_mro classes = .error (.duplicateHandler pt)) := by
  have hfold : packet_handlers_of_mro classes
      = (classes.flatten).foldl (fun a p => registerHandler a p.1 p.2) (.ok []) := by
    unfold packet_handlers_of_mro
    rw [List.foldl_flatten]
  constructor
  · intro h
    rw [hfold, foldl_registerHandler_ok _ [] (by simpa using h)]
    simp
  · intro h
    rw [hfold]
    exact foldl_registerHandler_dup _ [] (by simp) (by simpa using h)

/-- Witness for `handler_registry_collection`: distinct declarations across
two ancestry levels register fine; a repeated type across two levels errors. -/
theorem handler_registry_collection_witness :
    packet_handlers_of_mro [[(5, 50)], [(6, 60)]] = .ok [(5, 50), (6, 60)]
  ∧ ∃ pt, packet_handlers_of_mro [[(7, 70)], [(7, 71)]]
      = .error (.duplicateHandler pt) :=
  ⟨(handler_registry_collection [[(5, 50)], [(6, 60)]]).1 (by decide),
    (handler_registry_collection [[(7, 70)], [(7, 71)]]).2 (by decide)⟩

/-- C3 counterexample: a base class declares a handler for packet type 1
and its subclass declares another handler for the same type 1 (reversed MRO:
base first, subclass second).  The claim says the more specific declaration
overrides the more general one; the code instead raises `ValueError` at
construction, so the registry is never built. -/
theorem subclass_override_raises_at_registration :
    packet_handlers_of_mro [[(1, 10)], [(1, 20)]] = .error (.duplicateHandler 1)
      ∧ packet_handlers_of_mro [[(1, 10)], [(1, 20)]] ≠ .ok [(1, 20)] := by
  refine ⟨rfl, ?_⟩
  intro h
  rw [show packet_handlers_of_mro [[(1, 10)], [(1, 20)]]
      = .error (.duplicateHandler 1) from rfl] at h
  exact Except.noConfusion h

/-! ### C2/C6: the `Client` request/response machinery

`Client.request` stamps the packet with `id = f"c{self._current_id}"`,
increments the counter, registers a `PacketPlaceholder` under that id in
`self._expected_packets` **before** sending, suspends on the placeholder,
and deletes the entry once it has been resolved.  The background read task
(`Client._read_packets`) resolves the placeholder whose key equals the
incoming packet's id, and spawns a handler task for any other packet.

We model the client as a state machine over the id counter and the
placeholder table (an association list mirroring the Python dict), driven by
three kinds of events: a caller entering `request()` (assign + register +
send), a response packet arriving at the read loop, and a resolved caller
waking up to delete its entry and return.  Scheduling is adversarial: any
interleaving of events is a trace. -/

/-- The decimal digit characters of `n` (the f-string rendering `f"{n}"`),
computed with structural fuel (`fuel ≥ n` suffices). -/
def natDecCharsAux : Nat → Nat → List Char
  | 0, n => [Char.ofNat (48 + n % 10)]
  | fuel + 1, n =>
    if n < 10 then [Char.ofNat (48 + n)]
    else natDecCharsAux fuel (n / 10) ++ [Char.ofNat (48 + n % 10)]

def natDecChars (n : Nat) : List Char := natDecCharsAux n n

/-- The packet id `f"c{n}"` assigned by `Client.request`. -/
def cID (n : Nat) : String := String.mk ('c' :: natDecChars n)

/-- Numeric value of a digit character. -/
def charVal (c : Char) : Nat := c.toNat - 48

def listVal (l : List Char) : Nat := l.foldl (fun acc c => acc * 10 + charVal c) 0

theorem charVal_digit (d : Nat) (h : d < 10) : charVal (Char.ofNat (48 + d)) = d := by
  interval_cases d <;> rfl

theorem listVal_append_digit (l : List Char) (c : Char) :
    listVal (l ++ [c]) = listVal l * 10 + charVal c := by
  simp [listVal, List.foldl_append]

theorem listVal_natDecCharsAux (fuel n : Nat) (h : n ≤ fuel) :
    listVal (natDecCharsAux fuel n) = n := by
  induction fuel generalizing n with
  | zero =>
    have : n = 0 := by omega
    subst this
    rfl
  | succ fuel ih =>
    by_cases h10 : n < 10
    · rw [natDecCharsAux, if_pos h10]
      simp [listVal, charVal_digit n h10]
    · rw [natDecCharsAux, if_neg h10, listVal_append_digit]
      have hdiv : n / 10 ≤ fuel := by
        have := Nat.div_lt_self (by omega : 0 < n) (by omega : 1 < 10)
        omega
      rw [ih (n / 10) hdiv, charVal_digit (n % 10) (by omega)]
      omega

theorem listVal_natDecChars (n : Nat) : listVal (natDecChars n) = n :=
  listVal_natDecCharsAux n n (Nat.le_refl n)

theorem cID_inj (m n : Nat) (h : cID m = cID n) : m = n := by
  unfold cID at h
  have hdata : 'c' :: natDecChars m = 'c' :: natDecChars n := congrArg String.data h
  have hchars : natDecChars m = natDecChars n := by
    injection hdata
  calc m = listVal (natDecChars m) := (listVal_natDecChars m).symm
    _ = listVal (natDecChars n) := by rw [hchars]
    _ = n := listVal_natDecChars n

/-! ### Client state machine -/

inductive Ev where
  /-- a caller enters `request()`: assign the next id, register the
  placeholder, send the packet. -/
  | reqStart
  /-- the read loop decodes a packet carrying id `pid` and payload `pkt`. -/
  | respArrive (pid : String) (pkt : Nat)
  /-- the caller suspended on `pid`'s placeholder resumes: delete the entry
  and return the stored packet. -/
  | reqFinish (pid : String)
  deriving DecidableEq, Repr

inductive Out where
  | assigned (pid : String)
  | resolved (pid : String) (pkt : Nat)
  | returned (pid : String) (pkt : Nat)
  deriving DecidableEq, Repr

/-- Model of `Client` state: `_current_id` and `_expected_packets` (placeholder table;
`none` = still waiting, `some pkt` = resolved with `pkt`). -/
structure CState where
  current_id : Nat
  expected_packets : List (String × Option Nat)
  deriving DecidableEq, Repr

def initC : CState := ⟨0, []⟩

/-- Python dict assignment `d[k] = v`. -/
def setEntry : List (String × Option Nat) → String → Option Nat →
    List (String × Option Nat)
  | [], k, v => [(k, v)]
  | (k2, v2) :: rest, k, v =>
    if k2 = k then (k, v) :: rest else (k2, v2) :: setEntry rest k v

/-- Python dict deletion `del d[k]`. -/
def delEntry : List (String × Option Nat) → String → List (String × Option Nat)
  | [], _ => []
  | (k2, v2) :: rest, k => if k2 = k then rest else (k2, v2) :: delEntry rest k

def keysOf (m : List (String × Option Nat)) : List String := m.map Prod.fst

/-- One scheduler step of the client protocol. -/
def stepC (s : CState) : Ev → CState × List Out
  | .reqStart =>
    (⟨s.current_id + 1, setEntry s.expected_packets (cID s.current_id) none⟩,
      [.assigned (cID s.current_id)])
  | .respArrive pid pkt =>
    if pid ∈ keysOf s.expected_packets
    then (⟨s.current_id, setEntry s.expected_packets pid (some pkt)⟩,
      [.resolved pid pkt])
    else (s, [])
  | .reqFinish pid =>
    match List.lookup pid s.expected_packets with
    | some (some pkt) =>
      (⟨s.current_id, delEntry s.expected_packets pid⟩, [.returned pid pkt])
    | _ => (s, [])

def runC (s : CState) : List Ev → CState × List Out
  | [] => (s, [])
  | e :: evs =>
    ((runC (stepC s e).1 evs).1, (stepC s e).2 ++ (runC (stepC s e).1 evs).2)

/-- The response ids carried by the trace's arriving packets. -/
def respIds (evs : List Ev) : List String :=
  evs.filterMap (fun e => match e with | .respArrive pid _ => some pid | _ => none)

def countStarts (evs : List Ev) : Nat :=
  evs.countP (fun e => match e with | .reqStart => true | _ => false)

def assignedIds (outs : List Out) : List String :=
  outs.filterMap (fun o => match o with | .assigned pid => some pid | _ => none)

def resolvedIds (outs : List Out) : List String :=
  outs.filterMap (fun o => match o with | .resolved pid _ => some pid | _ => none)

def returnedIds (outs : List Out) : List String :=
  outs.filterMap (fun o => match o with | .returned pid _ => some pid | _ => none)

/-! ### Dictionary and projection lemmas -/

theorem setEntry_not_mem (m : List (String × Option Nat)) (k : String)
    (v : Option Nat) (h : k ∉ keysOf m) : setEntry m k v = m ++ [(k, v)] := by
  induction m with
  | nil => rfl
  | cons kv rest ih =>
    obtain ⟨k2, v2⟩ := kv
    simp only [keysOf, List.map_cons, List.mem_cons, not_or] at h
    rw [setEntry, if_neg (fun hh => h.1 hh.symm), ih (by simpa [keysOf] using h.2)]
    simp

theorem keysOf_setEntry_mem (m : List (String × Option Nat)) (k : String)
    (v : Option Nat) (h : k ∈ keysOf m) : keysOf (setEntry m k v) = keysOf m := by
  induction m with
  | nil => simp [keysOf] at h
  | cons kv rest ih =>
    obtain ⟨k2, v2⟩ := kv
    by_cases he : k2 = k
    · subst he
      rw [setEntry, if_pos rfl]
      simp [keysOf]
    · simp only [keysOf, List.map_cons, List.mem_cons] at h
      rcases h with h | h
      · exact absurd h.symm he
      · rw [setEntry, if_neg he]
        simp only [keysOf, List.map_cons]
        rw [show List.map Prod.fst (setEntry rest k v) = keysOf (setEntry rest k v) from rfl,
          ih h]
        rfl

theorem mem_setEntry (m : List (String × Option Nat)) (k : String)
    (v : Option Nat) (kv : String × Option Nat) (h : kv ∈ setEntry m k v) :
    kv = (k, v) ∨ kv ∈ m := by
  induction m with
  | nil =>
    simp only [setEntry, List.mem_singleton] at h
    exact Or.inl h
  | cons kv2 rest ih =>
    obtain ⟨k2, v2⟩ := kv2
    by_cases he : k2 = k
    · subst he
      rw [setEntry, if_pos rfl] at h
      rcases List.mem_cons.mp h with h | h
      · exact Or.inl h
      · exact Or.inr (List.mem_cons_of_mem _ h)
    · rw [setEntry, if_neg he] at h
      rcases List.mem_cons.mp h with h | h
      · exact Or.inr (h ▸ List.mem_cons_self _ _)
      · rcases ih h with h | h
        · exact Or.inl h
        · exact Or.inr (List.mem_cons_of_mem _ h)

theorem delEntry_sublist (m : List (String × Option Nat)) (k : String) :
    List.Sublist (delEntry m k) m := by
  induction m with
  | nil => exact List.Sublist.refl []
  | cons kv rest ih =>
    obtain ⟨k2, v2⟩ := kv
    rw [delEntry]
    by_cases he : k2 = k
    · rw [if_pos he]
      exact List.sublist_cons_of_sublist _ (List.Sublist.refl rest)
    · rw [if_neg he]
      exact List.Sublist.cons₂ _ ih

theorem not_mem_keysOf_delEntry (m : List (String × Option Nat)) (k : String)
    (h : (keysOf m).Nodup) : k ∉ keysOf (delEntry m k) := by
  induction m with
  | nil => simp [delEntry, keysOf]
  | cons kv rest ih =>
    obtain ⟨k2, v2⟩ := kv
    simp only [keysOf, List.map_cons, List.nodup_cons] at h
    rw [delEntry]
    by_cases he : k2 = k
    · rw [if_pos he]
      subst he
      exact fun hc => h.1 hc
    · rw [if_neg he]
      simp only [keysOf, List.map_cons, List.mem_cons, not_or]
      exact ⟨fun hc => he hc.symm, ih h.2⟩

theorem lookup_mem (m : List (String × Option Nat)) (k : String) (v : Option Nat)
    (h : List.lookup k m = some v) : (k, v) ∈ m := by
  induction m with
  | nil => simp [List.lookup] at h
  | cons kv rest ih =>
    obtain ⟨k2, v2⟩ := kv
    by_cases he : k = k2
    · subst he
      have hbeq : (k == k) = true := by simp
      rw [List.lookup, hbeq] at h
      have h2 : some v2 = some v := h
      injection h2 with h3
      subst h3
      exact List.mem_cons_self _ _
    · have hbeq : (k == k2) = false := by simpa using he
      rw [List.lookup, hbeq] at h
      have h2 : List.lookup k rest = some v := h
      exact List.mem_cons_of_mem _ (ih h2)

theorem lookup_mem_keys (m : List (String × Option Nat)) (k : String)
    (v : Option Nat) (h : List.lookup k m = some v) : k ∈ keysOf m :=
  List.mem_map.mpr ⟨(k, v), lookup_mem m k v h, rfl⟩

@[simp] theorem respIds_append (a b : List Ev) :
    respIds (a ++ b) = respIds a ++ respIds b := List.filterMap_append a b _

@[simp] theorem countStarts_append (a b : List Ev) :
    countStarts (a ++ b) = countStarts a + countStarts b := List.countP_append _ _ _

@[simp] theorem assignedIds_append (a b : List Out) :
    assignedIds (a ++ b) = assignedIds a ++ assignedIds b := List.filterMap_append a b _

@[simp] theorem resolvedIds_append (a b : List Out) :
    resolvedIds (a ++ b) = resolvedIds a ++ resolvedIds b := List.filterMap_append a b _

@[simp] theorem returnedIds_append (a b : List Out) :
    returnedIds (a ++ b) = returnedIds a ++ returnedIds b := List.filterMap_append a b _

@[simp] theorem respIds_start : respIds [Ev.reqStart] = [] := rfl

@[simp] theorem respIds_resp (pid : String) (pkt : Nat) :
    respIds [Ev.respArrive pid pkt] = [pid] := rfl

@[simp] theorem respIds_fin (pid : String) : respIds [Ev.reqFinish pid] = [] := rfl

@[simp] theorem countStarts_start : countStarts [Ev.reqStart] = 1 := rfl

@[simp] theorem countStarts_resp (pid : String) (pkt : Nat) :
    countStarts [Ev.respArrive pid pkt] = 0 := rfl

@[simp] theorem countStarts_fin (pid : String) : countStarts [Ev.reqFinish pid] = 0 := rfl

@[simp] theorem assignedIds_assigned (pid : String) :
    assignedIds [Out.assigned pid] = [pid] := rfl

@[simp] theorem assignedIds_resolved (pid : String) (pkt : Nat) :
    assignedIds [Out.resolved pid pkt] = [] := rfl

@[simp] theorem assignedIds_returned (pid : String) (pkt : Nat) :
    assignedIds [Out.returned pid pkt] = [] := rfl

@[simp] theorem resolvedIds_assigned (pid : String) :
    resolvedIds [Out.assigned pid] = [] := rfl

@[simp] theorem resolvedIds_resolved (pid : String) (pkt : Nat) :
    resolvedIds [Out.resolved pid pkt] = [pid] := rfl

@[simp] theorem resolvedIds_returned (pid : String) (pkt : Nat) :
    resolvedIds [Out.returned pid pkt] = [] := rfl

@[simp] theorem returnedIds_assigned (pid : String) :
    returnedIds [Out.assigned pid] = [] := rfl

@[simp] theorem returnedIds_resolved (pid : String) (pkt : Nat) :
    returnedIds [Out.resolved pid pkt] = [] := rfl

@[simp] theorem returnedIds_returned (pid : String) (pkt : Nat) :
    returnedIds [Out.returned pid pkt] = [pid] := rfl

/-! ### The protocol invariant -/

/-- Invariant tying a trace `evs`, its outputs `outs` and the client state:
placeholder keys are distinct ids `"c<m>"` below the counter; a resolved
entry stores a packet that actually arrived; assigned ids are exactly
`"c0" ... "c<n-1>"` in order; resolutions are backed by arrivals and bounded
by them; returns are backed by resolutions, their ids are dead and old, and
each id returns at most once. -/
structure CInv (evs : List Ev) (outs : List Out) (s : CState) : Prop where
  nodup_keys : (keysOf s.expected_packets).Nodup
  keys_lt : ∀ kv ∈ s.expected_packets, ∃ m, m < s.current_id ∧ kv.1 = cID m
  resolved_entry : ∀ kv ∈ s.expected_packets, ∀ pkt, kv.2 = some pkt →
    Out.resolved kv.1 pkt ∈ outs
  starts_eq : countStarts evs = s.current_id
  assigned_eq : assignedIds outs = (List.range s.current_id).map cID
  resolved_src : ∀ pid pkt, Out.resolved pid pkt ∈ outs → Ev.respArrive pid pkt ∈ evs
  resolved_cnt : ∀ pid, (resolvedIds outs).count pid ≤ (respIds evs).count pid
  returned_res : ∀ pid pkt, Out.returned pid pkt ∈ outs → Out.resolved pid pkt ∈ outs
  returned_gone : ∀ pid, pid ∈ returnedIds outs → pid ∉ keysOf s.expected_packets
  returned_old : ∀ pid, pid ∈ returnedIds outs → ∃ m, m < s.current_id ∧ pid = cID m
  returned_cnt : ∀ pid, (returnedIds outs).count pid ≤ 1

theorem CInv_init : CInv [] [] initC := by
  refine ⟨?_, ?_, ?_, ?_, ?_, ?_, ?_, ?_, ?_, ?_, ?_⟩ <;>
    simp [initC, keysOf, countStarts, assignedIds, resolvedIds, returnedIds, respIds]

theorem stepC_inv (evs : List Ev) (outs : List Out) (s : CState) (e : Ev)
    (hinv : CInv evs outs s) :
    CInv (evs ++ [e]) (outs ++ (stepC s e).2) (stepC s e).1 := by
  cases e with
  | reqStart =>
    have hfresh : cID s.current_id ∉ keysOf s.expected_packets := by
      intro hmem
      obtain ⟨kv, hkv, heq⟩ := List.mem_map.mp hmem
      obtain ⟨m, hm, hkv1⟩ := hinv.keys_lt kv hkv
      rw [hkv1] at heq
      exact absurd (cID_inj _ _ heq) (by omega)
    have hset := setEntry_not_mem s.expected_packets (cID s.current_id) none hfresh
    simp only [stepC, hset]
    refine ⟨?_, ?_, ?_, ?_, ?_, ?_, ?_, ?_, ?_, ?_, ?_⟩
    · simp only [keysOf, List.map_append, List.map_cons, List.map_nil]
      rw [List.nodup_append]
      refine ⟨hinv.nodup_keys, List.nodup_singleton _, ?_⟩
      intro a ha hb
      simp only [List.mem_singleton] at hb
      subst hb
      exact hfresh ha
    · intro kv hkv
      rcases List.mem_append.mp hkv with h | h
      · obtain ⟨m, hm, he⟩ := hinv.keys_lt kv h
        exact ⟨m, Nat.lt_succ_of_lt hm, he⟩
      · simp only [List.mem_singleton] at h
        subst h
        exact ⟨s.current_id, Nat.lt_succ_self _, rfl⟩
    · intro kv hkv pkt hpkt
      rcases List.mem_append.mp hkv with h | h
      · exact List.mem_append_left _ (hinv.resolved_entry kv h pkt hpkt)
      · simp only [List.mem_singleton] at h
        subst h
        simp at hpkt
    · simp [hinv.starts_eq]
    · simp only [assignedIds_append, assignedIds_assigned, hinv.assigned_eq,
        List.range_succ, List.map_append, List.map_cons, List.map_nil]
    · intro pid pkt hmem
      rcases List.mem_append.mp hmem with h | h
      · exact List.mem_append_left _ (hinv.resolved_src pid pkt h)
      · simp at h
    · intro pid
      simpa using hinv.resolved_cnt pid
    · intro pid pkt hmem
      rcases List.mem_append.mp hmem with h | h
      · exact List.mem_append_left _ (hinv.returned_res pid pkt h)
      · simp at h
    · intro pid hmem
      simp only [returnedIds_append, returnedIds_assigned, List.append_nil] at hmem
      have hold := hinv.returned_gone pid hmem
      obtain ⟨m, hm, he⟩ := hinv.returned_old pid hmem
      simp only [keysOf, List.map_append, List.map_cons, List.map_nil, List.mem_append,
        List.mem_singleton, not_or]
      refine ⟨by simpa [keysOf] using hold, ?_⟩
      intro hc
      rw [he] at hc
      exact absurd (cID_inj _ _ hc) (by omega)
    · intro pid hmem
      simp only [returnedIds_append, returnedIds_assigned, List.append_nil] at hmem
      obtain ⟨m, hm, he⟩ := hinv.returned_old pid hmem
      exact ⟨m, Nat.lt_succ_of_lt hm, he⟩
    · intro pid
      simpa using hinv.returned_cnt pid
  | respArrive pid pkt =>
    by_cases hmem : pid ∈ keysOf s.expected_packets
    · simp only [stepC, if_pos hmem]
      refine ⟨?_, ?_, ?_, ?_, ?_, ?_, ?_, ?_, ?_, ?_, ?_⟩
      · rw [keysOf_setEntry_mem _ _ _ hmem]
        exact hinv.nodup_keys
      · intro kv hkv
        rcases mem_setEntry _ _ _ kv hkv with h | h
        · subst h
          obtain ⟨kv0, hkv0, hfst⟩ := List.mem_map.mp hmem
          obtain ⟨m, hm, he⟩ := hinv.keys_lt kv0 hkv0
          exact ⟨m, hm, by rw [← hfst, he]⟩
        · exact hinv.keys_lt kv h
      · intro kv hkv pkt2 hpkt2
        rcases mem_setEntry _ _ _ kv hkv with h | h
        · subst h
          simp only at hpkt2
          injection hpkt2 with hpkt2
          subst hpkt2
          exact List.mem_append_right _ (List.mem_singleton.mpr rfl)
        · exact List.mem_append_left _ (hinv.resolved_entry kv h pkt2 hpkt2)
      · simp [hinv.starts_eq]
      · simp [hinv.assigned_eq]
      · intro pid2 pkt2 hm2
        rcases List.mem_append.mp hm2 with h | h
        · exact List.mem_append_left _ (hinv.resolved_src pid2 pkt2 h)
        · simp only [List.mem_singleton] at h
          injection h with h1 h2
          subst h1
          subst h2
          exact List.mem_append_right _ (by simp)
      · intro pid2
        simp only [resolvedIds_append, resolvedIds_resolved, respIds_append, respIds_resp,
          List.count_append]
        have := hinv.resolved_cnt pid2
        omega
      · intro pid2 pkt2 hm2
        rcases List.mem_append.mp hm2 with h | h
        · exact List.mem_append_left _ (hinv.returned_res pid2 pkt2 h)
        · simp at h
      · intro pid2 hm2
        simp only [returnedIds_append, returnedIds_resolved, List.append_nil] at hm2
        rw [keysOf_setEntry_mem _ _ _ hmem]
        exact hinv.returned_gone pid2 hm2
      · intro pid2 hm2
        simp only [returnedIds_append, returnedIds_resolved, List.append_nil] at hm2
        exact hinv.returned_old pid2 hm2
      · intro pid2
        simpa using hinv.returned_cnt pid2
    · simp only [stepC, if_neg hmem]
      refine ⟨hinv.nodup_keys, hinv.keys_lt, ?_, by simp [hinv.starts_eq],
        by simpa using hinv.assigned_eq, ?_, ?_, ?_, ?_, ?_, ?_⟩
      · intro kv hkv pkt2 hpkt2
        simpa using hinv.resolved_entry kv hkv pkt2 hpkt2
      · intro pid2 pkt2 hm2
        simp only [List.append_nil] at hm2
        exact List.mem_append_left _ (hinv.resolved_src pid2 pkt2 hm2)
      · intro pid2
        simp only [List.append_nil, respIds_append, respIds_resp, List.count_append]
        have := hinv.resolved_cnt pid2
        omega
      · intro pid2 pkt2 hm2
        simpa using hinv.returned_res pid2 pkt2 (by simpa using hm2)
      · intro pid2 hm2
        exact hinv.returned_gone pid2 (by simpa using hm2)
      · intro pid2 hm2
        exact hinv.returned_old pid2 (by simpa using hm2)
      · intro pid2
        simpa using hinv.returned_cnt pid2
  | reqFinish pid =>
    cases hlk : List.lookup pid s.expected_packets with
    | none =>
      simp only [stepC, hlk]
      refine ⟨hinv.nodup_keys, hinv.keys_lt, ?_, by simp [hinv.starts_eq],
        by simpa using hinv.assigned_eq, ?_, ?_, ?_, ?_, ?_, ?_⟩
      · intro kv hkv pkt2 hpkt2
        simpa using hinv.resolved_entry kv hkv pkt2 hpkt2
      · intro pid2 pkt2 hm2
        simp only [List.append_nil] at hm2
        exact List.mem_append_left _ (hinv.resolved_src pid2 pkt2 hm2)
      · intro pid2
        simpa using hinv.resolved_cnt pid2
      · intro pid2 pkt2 hm2
        simpa using hinv.returned_res pid2 pkt2 (by simpa using hm2)
      · intro pid2 hm2
        exact hinv.returned_gone pid2 (by simpa using hm2)
      · intro pid2 hm2
        exact hinv.returned_old pid2 (by simpa using hm2)
      · intro pid2
        simpa using hinv.returned_cnt pid2
    | some v =>
      cases v with
      | none =>
        simp only [stepC, hlk]
        refine ⟨hinv.nodup_keys, hinv.keys_lt, ?_, by simp [hinv.starts_eq],
          by simpa using hinv.assigned_eq, ?_, ?_, ?_, ?_, ?_, ?_⟩
        · intro kv hkv pkt2 hpkt2
          simpa using hinv.resolved_entry kv hkv pkt2 hpkt2
        · intro pid2 pkt2 hm2
          simp only [List.append_nil] at hm2
          exact List.mem_append_left _ (hinv.resolved_src pid2 pkt2 hm2)
        · intro pid2
          simpa using hinv.resolved_cnt pid2
        · intro pid2 pkt2 hm2
          simpa using hinv.returned_res pid2 pkt2 (by simpa using hm2)
        · intro pid2 hm2
          exact hinv.returned_gone pid2 (by simpa using hm2)
        · intro pid2 hm2
          exact hinv.returned_old pid2 (by simpa using hm2)
        · intro pid2
          simpa using hinv.returned_cnt pid2
      | some pkt =>
        have hpidk : pid ∈ keysOf s.expected_packets :=
          lookup_mem_keys _ _ _ hlk
        have hmementry : (pid, some pkt) ∈ s.expected_packets :=
          lookup_mem _ _ _ hlk
        have hsub := delEntry_sublist s.expected_packets pid
        simp only [stepC, hlk]
        refine ⟨?_, ?_, ?_, by simp [hinv.starts_eq], ?_, ?_, ?_, ?_, ?_, ?_, ?_⟩
        · exact List.Nodup.sublist (List.Sublist.map Prod.fst hsub) hinv.nodup_keys
        · intro kv hkv
          exact hinv.keys_lt kv (hsub.subset hkv)
        · intro kv hkv pkt2 hpkt2
          exact List.mem_append_left _
            (hinv.resolved_entry kv (hsub.subset hkv) pkt2 hpkt2)
        · simpa using hinv.assigned_eq
        · intro pid2 pkt2 hm2
          rcases List.mem_append.mp hm2 with h | h
          · exact List.mem_append_left _ (hinv.resolved_src pid2 pkt2 h)
          · simp at h
        · intro pid2
          simpa using hinv.resolved_cnt pid2
        · intro pid2 pkt2 hm2
          rcases List.mem_append.mp hm2 with h | h
          · exact List.mem_append_left _ (hinv.returned_res pid2 pkt2 h)
          · simp only [List.mem_singleton] at h
            injection h with h1 h2
            rw [h1, h2]
            exact List.mem_append_left _
              (hinv.resolved_entry (pid, some pkt) hmementry pkt rfl)
        · intro pid2 hm2
          simp only [returnedIds_append, returnedIds_returned, List.mem_append,
            List.mem_singleton] at hm2
          rcases hm2 with h | h
          · intro hc
            exact hinv.returned_gone pid2 h
              (List.Sublist.subset (List.Sublist.map Prod.fst hsub) hc)
          · subst h
            exact not_mem_keysOf_delEntry _ _ hinv.nodup_keys
        · intro pid2 hm2
          simp only [returnedIds_append, returnedIds_returned, List.mem_append,
            List.mem_singleton] at hm2
          rcases hm2 with h | h
          · exact hinv.returned_old pid2 h
          · subst h
            obtain ⟨kv0, hkv0, hfst⟩ := List.mem_map.mp hpidk
            obtain ⟨m, hm, he⟩ := hinv.keys_lt kv0 hkv0
            exact ⟨m, hm, by rw [← hfst, he]⟩
        · intro pid2
          simp only [returnedIds_append, returnedIds_returned, List.count_append]
          by_cases hq : pid2 = pid
          · subst hq
            have hzero : (returnedIds outs).count pid2 = 0 := by
              rw [List.count_eq_zero]
              intro hmem2
              exact hinv.returned_gone pid2 hmem2 hpidk
            simp [hzero, List.count_cons]
          · have := hinv.returned_cnt pid2
            have hone : ([pid].count pid2) = 0 := by
              rw [List.count_eq_zero]
              simpa using fun h => hq h
            omega

theorem runC_inv (evs : List Ev) : ∀ (evs0 : List Ev) (outs0 : List Out) (s : CState),
    CInv evs0 outs0 s →
    CInv (evs0 ++ evs) (outs0 ++ (runC s evs).2) (runC s evs).1 := by
  induction evs with
  | nil =>
    intro evs0 outs0 s h
    simpa [runC] using h
  | cons e evs ih =>
    intro evs0 outs0 s h
    have h2 := ih (evs0 ++ [e]) (outs0 ++ (stepC s e).2) (stepC s e).1
      (stepC_inv evs0 outs0 s e h)
    simpa [runC, List.append_assoc] using h2

/-- C2: on one connection, `request()` assigns ids `"c0", "c1", "c2", …`
in order (the counter increases monotonically from 0); each call registers
one placeholder under its fresh id before sending; the read loop resolves a
placeholder only for a response that actually arrived bearing that id, at
most once per id when each id is answered at most once; at most one
outstanding placeholder exists per id at any reachable state; and each
finished caller returns a packet that resolved exactly its own id — for any
interleaving of concurrent requests and responses. -/
theorem request_correlation (evs : List Ev) (huniq : (respIds evs).Nodup) :
    assignedIds (runC initC evs).2 = (List.range (countStarts evs)).map cID
  ∧ (keysOf (runC initC evs).1.expected_packets).Nodup
  ∧ (∀ pid pkt, Out.resolved pid pkt ∈ (runC initC evs).2 →
      Ev.respArrive pid pkt ∈ evs)
  ∧ (∀ pid, (resolvedIds (runC initC evs).2).count pid ≤ 1)
  ∧ (∀ pid pkt, Out.returned pid pkt ∈ (runC initC evs).2 →
      Out.resolved pid pkt ∈ (runC initC evs).2)
  ∧ (∀ pid, (returnedIds (runC initC evs).2).count pid ≤ 1) := by
  have h := runC_inv evs [] [] initC CInv_init
  simp only [List.nil_append] at h
  refine ⟨?_, h.nodup_keys, h.resolved_src, ?_, h.returned_res, h.returned_cnt⟩
  · rw [h.assigned_eq, h.starts_eq]
  · intro pid
    have h1 := h.resolved_cnt pid
    have h2 := List.nodup_iff_count_le_one.mp huniq pid
    omega

/-- Two concurrent requests whose responses arrive in reversed order. -/
def demoTrace : List Ev :=
  [.reqStart, .reqStart, .respArrive (cID 1) 42, .reqFinish (cID 1),
   .respArrive (cID 0) 7, .reqFinish (cID 0)]

/-- Witness for `request_correlation`: on a trace with two interleaved
requests answered out of order, the assigned ids are `"c0"`, `"c1"` in order
and each caller got back exactly the packet bearing its own id. -/
theorem request_correlation_witness :
    (respIds demoTrace).Nodup
  ∧ assignedIds (runC initC demoTrace).2 = (List.range (countStarts demoTrace)).map cID
  ∧ cID 0 = "c0" ∧ cID 1 = "c1"
  ∧ Out.returned (cID 0) 7 ∈ (runC initC demoTrace).2
  ∧ Out.returned (cID 1) 42 ∈ (runC initC demoTrace).2 :=
  ⟨by decide, (request_correlation demoTrace (by decide)).1,
    by decide, by decide, by decide, by decide⟩

/-! ### C6: the body of `Client._read_packets` -/

inductive LoopAction where
  /-- `self._expected_packets[packet.id].set(packet)` -/
  | resolve (pid : String)
  /-- `asyncio.create_task(self._call_handler(packet))` — an independently
  scheduled task, so the loop continues immediately. -/
  | dispatch
  /-- an uncaught exception escapes the loop body, killing the read task. -/
  | crash
  deriving DecidableEq, Repr

/-- One iteration of the client read loop on a decoded packet whose `"id"`
key holds `id?` (`none` when the packet has no id field), with `keys` the
current pending-request ids.  `packet.id` is a `classyjson.ClassyDict`
attribute access, which is dict item access: on a packet without an `"id"`
key it raises `KeyError`, crashing the read task — the code tests
`packet.id in self._expected_packets` before any `.get` guard. -/
def read_loop_step (keys : List String) (id? : Option String) : LoopAction :=
  match id? with
  | none => .crash
  | some pid => if pid ∈ keys then .resolve pid else .dispatch

theorem lookup_setEntry_ne (m : List (String × Option Nat)) (k pid : String)
    (v : Option Nat) (hne : k ≠ pid) :
    List.lookup k (setEntry m pid v) = List.lookup k m := by
  induction m with
  | nil =>
    simp only [setEntry, List.lookup]
    rw [show (k == pid) = false by simpa using hne]
  | cons kv rest ih =>
    obtain ⟨k2, v2⟩ := kv
    by_cases he : k2 = pid
    · rw [he, setEntry, if_pos rfl]
      simp only [List.lookup]
      rw [show (k == pid) = false by simpa using hne]
    · rw [setEntry, if_neg he]
      simp only [List.lookup]
      cases hbeq : (k == k2) with
      | true => rfl
      | false => exact ih

/-- C6 (amended): for every packet decoded by the read loop that carries
an id, if the id matches a pending placeholder then exactly that one
placeholder is resolved — the emitted action is the single resolution of
that id and every other entry of the table is untouched — and otherwise the
packet is dispatched to the handler registry as an independently scheduled
task.  A packet carrying **no** id field, however, crashes the read loop:
`packet.id` on a `classyjson.ClassyDict` raises `KeyError` (the membership
test precedes any `.get` guard), so such packets are not dispatched. -/
theorem read_loop_dispatch (keys : List String) (pid : String) (s : CState) (pkt : Nat) :
    (pid ∈ keys → read_loop_step keys (some pid) = .resolve pid)
  ∧ (pid ∉ keys → read_loop_step keys (some pid) = .dispatch)
  ∧ read_loop_step keys none = .crash
  ∧ (pid ∈ keysOf s.expected_packets →
      (stepC s (.respArrive pid pkt)).2 = [.resolved pid pkt]
      ∧ ∀ k, k ≠ pid →
        List.lookup k (stepC s (.respArrive pid pkt)).1.expected_packets
          = List.lookup k s.expected_packets) := by
  refine ⟨?_, ?_, rfl, ?_⟩
  · intro h
    simp [read_loop_step, h]
  · intro h
    simp [read_loop_step, h]
  · intro h
    refine ⟨by simp [stepC, h], ?_⟩
    intro k hk
    simp only [stepC, if_pos h]
    exact lookup_setEntry_ne _ _ _ _ hk

/-- Witness for `read_loop_dispatch`: concrete table `{"c0": waiting}`. -/
theorem read_loop_dispatch_witness :
    read_loop_step ["c0"] (some "c0") = .resolve "c0"
  ∧ read_loop_step ["c0"] (some "c7") = .dispatch
  ∧ read_loop_step ["c0"] none = .crash
  ∧ (stepC ⟨1, [("c0", none)]⟩ (.respArrive "c0" 5)).2 = [.resolved "c0" 5] :=
  ⟨(read_loop_dispatch ["c0"] "c0" initC 0).1 (by decide),
    (read_loop_dispatch ["c0"] "c7" initC 0).2.1 (by decide),
    (read_loop_dispatch ["c0"] "c0" initC 0).2.2.1,
    ((read_loop_dispatch ["c0"] "c0" ⟨1, [("c0", none)]⟩ 5).2.2.2 (by decide)).1⟩

/-- C6 counterexample: a decoded packet with no `"id"` field at all is
not dispatched to the handler registry — the read loop crashes on the
`packet.id` access (`KeyError`), contradicting the claim that the loop never
crashes in handling a packet. -/
theorem read_loop_crashes_on_idless_packet :
    read_loop_step ["c0"] none = .crash
      ∧ read_loop_step ["c0"] none ≠ .dispatch := by
  exact ⟨rfl, by intro h; exact LoopAction.noConfusion h⟩

/-! ### C7/C8: `Server.handle_connection`

The coordinator appends the new stream to `self.connections` on arrival —
before any packet has been read — then loops: while unauthenticated it
checks `packet.get("auth")` against the shared secret, replying
`AUTH_RESPONSE{success, id: packet.id}` and, on failure, removing the stream
from `self.connections` and returning (no retry); once authenticated, a
`DISCONNECT` packet removes the stream and returns, and every other packet
is handed to `call_handler` as an independent task.  `JsonPacketStream.close`
is never invoked on this path.  The model runs the loop over the
connection's finite packet list (the coordinator is live: `self.closing` is
false); the end of the list is the stream closing, which makes
`read_packet` raise out of the task. -/

namespace PacketType

def AUTH : Nat := 1

def AUTH_RESPONSE : Nat := 2

def DISCONNECT : Nat := 3

def MISSING_PACKET : Nat := 4

def CLUSTER_READY : Nat := 5

def EVAL : Nat := 6

def EVAL_RESPONSE : Nat := 7

def EXEC : Nat := 8

def EXEC_RESPONSE : Nat := 9

def BROADCAST_REQUEST : Nat := 10

def BROADCAST_RESPONSE : Nat := 11

end PacketType

/-- An inbound packet as the coordinator sees it: its `"auth"` field (if
any), its `"id"` field (if any), and its `type` code. -/
structure SPacket where
  auth? : Option String
  id? : Option String
  ptype : Nat
  deriving DecidableEq, Repr

inductive SAct where
  /-- `self.connections.append(stream)` -/
  | addConn
  /-- `stream.write_packet({type: AUTH_RESPONSE, success, id})` -/
  | writeAuthResp (success : Bool) (pid : String)
  /-- `self.connections.remove(stream)` -/
  | removeConn
  /-- `asyncio.create_task(self.call_handler(stream, packet))` -/
  | spawnHandler (ptype : Nat)
  /-- `packet.id` raised `KeyError` (no `"id"` field), killing the task. -/
  | crash
  /-- `read_packet` raised (stream ended mid-read); the exception escapes. -/
  | readRaised
  /-- `JsonPacketStream.close` — present in the model so that its absence
  from every trace is expressible. -/
  | closeStream
  deriving DecidableEq, Repr

/-- The `while not self.closing` loop of `handle_connection`, over the
connection's remaining packets; returns the emitted actions and the packets
left unread when the loop exits. -/
def serveLoop (secret : String) : Bool → List SPacket → List SAct × List SPacket
  | _, [] => ([.readRaised], [])
  | authed, p :: rest =>
    if authed then
      if p.ptype = PacketType.DISCONNECT then ([.removeConn], rest)
      else
        (.spawnHandler p.ptype :: (serveLoop secret true rest).1,
          (serveLoop secret true rest).2)
    else
      if p.auth? = some secret then
        match p.id? with
        | none => ([.crash], rest)
        | some pid =>
          (.writeAuthResp true pid :: (serveLoop secret true rest).1,
            (serveLoop secret true rest).2)
      else
        match p.id? with
        | none => ([.crash], rest)
        | some pid => ([.writeAuthResp false pid, .removeConn], rest)

/-- Model of `Server.handle_connection`: append to the live list first, then serve. -/
def handle_connection (secret : String) (packets : List SPacket) :
    List SAct × List SPacket :=
  (.addConn :: (serveLoop secret false packets).1, (serveLoop secret false packets).2)

/-- Whether this connection is in `self.connections` after `acts`. -/
def memberAfter (acts : List SAct) : Bool :=
  acts.contains .addConn && !(acts.contains .removeConn)

/-- C7 (amended): when the first packet on a new connection carries an
incorrect secret (and an id to echo), the coordinator emits exactly the
actions: append to the live list, one `AUTH_RESPONSE{success: false}`
echoing the incoming id, and removal from the live list — then returns.  No
further packet is read (the remainder of the stream is returned unread) and
there is no retry; but the stream is **not** explicitly closed
(`JsonPacketStream.close` is never called on this path). -/
theorem auth_failure_behavior (secret : String) (p : SPacket) (pid : String)
    (rest : List SPacket) (hwrong : p.auth? ≠ some secret) (hid : p.id? = some pid) :
    handle_connection secret (p :: rest)
      = ([.addConn, .writeAuthResp false pid, .removeConn], rest) := by
  unfold handle_connection serveLoop
  rw [if_neg (by exact Bool.false_ne_true), if_neg hwrong, hid]

/-- A first packet bearing the wrong secret. -/
def badAuthPacket : SPacket := ⟨some "wrong", some "c0", PacketType.AUTH⟩

/-- Witness for `auth_failure_behavior` at a concrete wrong-secret packet
followed by another packet that is never read. -/
theorem auth_failure_behavior_witness :
    handle_connection "secret" [badAuthPacket, ⟨none, none, PacketType.EVAL⟩]
      = ([.addConn, .writeAuthResp false "c0", .removeConn],
          [⟨none, none, PacketType.EVAL⟩]) :=
  auth_failure_behavior "secret" badAuthPacket "c0" [⟨none, none, PacketType.EVAL⟩]
    (by decide) rfl

/-- C7 counterexample: on a wrong-secret connection the coordinator
replies, removes the connection from the live set and stops reading, but it
never calls `close` on the stream — the claim's "closes the connection
immediately" does not happen. -/
theorem auth_failure_does_not_close :
    (handle_connection "secret" [badAuthPacket]).1
        = [.addConn, .writeAuthResp false "c0", .removeConn]
      ∧ SAct.closeStream ∉ (handle_connection "secret" [badAuthPacket]).1 := by
  refine ⟨rfl, ?_⟩
  intro h
  rw [show (handle_connection "secret" [badAuthPacket]).1
      = [.addConn, .writeAuthResp false "c0", .removeConn] from rfl] at h
  simp at h

theorem getLast?_cons_ne {α : Type} (a : α) (l : List α) (h : l ≠ []) :
    (a :: l).getLast? = l.getLast? := by
  cases l with
  | nil => exact absurd rfl h
  | cons b l => exact List.getLast?_cons_cons

/-- Structure of every `serveLoop` trace: the loop never appends to the live
list, never closes the stream, removes at most once, and a removal — when it
happens — is the final action of the trace (the loop returns right after). -/
theorem serveLoop_shape (secret : String) : ∀ (packets : List SPacket) (authed : Bool),
    (serveLoop secret authed packets).1 ≠ []
  ∧ (serveLoop secret authed packets).1.count .addConn = 0
  ∧ (serveLoop secret authed packets).1.count .closeStream = 0
  ∧ (serveLoop secret authed packets).1.count .removeConn ≤ 1
  ∧ (SAct.removeConn ∈ (serveLoop secret authed packets).1 ↔
      (serveLoop secret authed packets).1.getLast? = some .removeConn) := by
  intro packets
  induction packets with
  | nil =>
    intro authed
    refine ⟨by simp [serveLoop], by simp [serveLoop], by simp [serveLoop],
      by simp [serveLoop], ?_⟩
    simp [serveLoop]
  | cons p rest ih =>
    intro authed
    cases authed with
    | true =>
      by_cases hdis : p.ptype = PacketType.DISCONNECT
      · rw [serveLoop, if_pos rfl, if_pos hdis]
        refine ⟨by simp, by simp, by simp, by simp, by simp⟩
      · rw [serveLoop, if_pos rfl, if_neg hdis]
        obtain ⟨hne, hadd, hclose, hrem, hiff⟩ := ih true
        refine ⟨by simp, ?_, ?_, ?_, ?_⟩
        · simpa [List.count_cons] using hadd
        · simpa [List.count_cons] using hclose
        · simpa [List.count_cons] using hrem
        · rw [getLast?_cons_ne _ _ hne]
          constructor
          · intro hmem
            rcases List.mem_cons.mp hmem with h | h
            · exact absurd h.symm (by simp)
            · exact hiff.mp h
          · intro hlast
            exact List.mem_cons_of_mem _ (hiff.mpr hlast)
    | false =>
      rw [serveLoop, if_neg (by exact Bool.false_ne_true)]
      by_cases hauth : p.auth? = some secret
      · rw [if_pos hauth]
        cases hid : p.id? with
        | none =>
          refine ⟨by simp, by simp, by simp, by simp, by simp⟩
        | some pid =>
          obtain ⟨hne, hadd, hclose, hrem, hiff⟩ := ih true
          refine ⟨by simp, ?_, ?_, ?_, ?_⟩
          · simpa [List.count_cons] using hadd
          · simpa [List.count_cons] using hclose
          · simpa [List.count_cons] using hrem
          · rw [getLast?_cons_ne _ _ hne]
            constructor
            · intro hmem
              rcases List.mem_cons.mp hmem with h | h
              · exact absurd h.symm (by simp)
              · exact hiff.mp h
            · intro hlast
              exact List.mem_cons_of_mem _ (hiff.mpr hlast)
      · rw [if_neg hauth]
        cases hid : p.id? with
        | none =>
          refine ⟨by simp, by simp, by simp, by simp, by simp⟩
        | some pid =>
          refine ⟨by simp, by simp, by simp, by simp, by simp⟩

/-- C8 (amended): the coordinator's live connection list gains every
connection at accept time, **before** authentication (the very first action
of `handle_connection` is the append, so an unauthenticated or about-to-fail
connection is a member while being served); it is mutated only by that
single append and by at most one removal, which happens only as the final
action of the auth-failure and `DISCONNECT` return paths (a stream that just
ends is never removed); and the stream is never explicitly closed. -/
theorem connection_set_mutation (secret : String) (packets : List SPacket) :
    (handle_connection secret packets).1.head? = some .addConn
  ∧ (handle_connection secret packets).1.count .addConn = 1
  ∧ (handle_connection secret packets).1.count .removeConn ≤ 1
  ∧ (SAct.removeConn ∈ (handle_connection secret packets).1 ↔
      (handle_connection secret packets).1.getLast? = some .removeConn)
  ∧ SAct.closeStream ∉ (handle_connection secret packets).1 := by
  obtain ⟨hne, hadd, hclose, hrem, hiff⟩ := serveLoop_shape secret packets false
  unfold handle_connection
  refine ⟨rfl, ?_, ?_, ?_, ?_⟩
  · simp [List.count_cons, hadd]
  · simpa [List.count_cons] using hrem
  · rw [getLast?_cons_ne _ _ hne]
    constructor
    · intro hmem
      rcases List.mem_cons.mp hmem with h | h
      · exact absurd h.symm (by simp)
      · exact hiff.mp h
    · intro hlast
      exact List.mem_cons_of_mem _ (hiff.mpr hlast)
  · intro hmem
    rcases List.mem_cons.mp hmem with h | h
    · exact SAct.noConfusion h
    · rw [← List.count_pos_iff] at h
      omega

/-- C8 counterexample: a connection that is accepted and whose stream
then ends — without ever authenticating — is appended to the live connection
list and never removed: an unauthenticated connection is a member of the
set, and remains one, contradicting "contains exactly the connections that
have successfully authenticated". -/
theorem connection_in_set_before_auth :
    (handle_connection "s" []).1 = [.addConn, .readRaised]
      ∧ memberAfter (handle_connection "s" []).1 = true := by
  exact ⟨rfl, rfl⟩

/-! ### C10: `Client._call_handler` reply stamping

When a client-side handler returns a dict, `_call_handler` sets
`data["id"] = packet.id` when the incoming packet carried an id, then
unconditionally sets `data["type"] = PacketType.BROADCAST_RESPONSE`
(overwriting whatever the handler put there) and sends the dict.  A `None`
return sends nothing; any other return raises `ValueError`.  The code path
is the same for every inbound packet type — the stamping never inspects
`packet.type`. -/

inductive HandlerResult where
  | retNone
  | retDict (d : List (String × PyVal))
  | retOther
  deriving Repr

inductive ClientAction where
  | send (d : List (String × PyVal))
  | noAction
  | raiseInvalidReturn
  deriving Repr

/-- The reply handling of `Client._call_handler`, given the incoming
packet's `"id"` field (if any) and the handler's return value. -/
def call_handler_reply (id? : Option String) (res : HandlerResult) : ClientAction :=
  match res with
  | .retNone => .noAction
  | .retOther => .raiseInvalidReturn
  | .retDict d =>
    let d1 := match id? with
      | some pid => dictInsert d "id" (.pystr pid)
      | none => d
    .send (dictInsert d1 "type" (.pyint (PacketType.BROADCAST_RESPONSE : Int)))

theorem mem_dictInsert_self (d : List (String × PyVal)) (k : String) (v : PyVal) :
    (k, v) ∈ dictInsert d k v := by
  unfold dictInsert
  split
  · rename_i hcon
    have hmem : k ∈ d.map Prod.fst := by simpa using hcon
    obtain ⟨p, hp, hpk⟩ := List.mem_map.mp hmem
    refine List.mem_map.mpr ⟨p, hp, ?_⟩
    rw [if_pos (by simpa using hpk)]
    rw [hpk]
  · exact List.mem_append_right _ (by simp)

theorem mem_dictInsert_key (d : List (String × PyVal)) (k : String) (v w : PyVal)
    (h : (k, w) ∈ dictInsert d k v) : w = v := by
  unfold dictInsert at h
  split at h
  · obtain ⟨p, hp, hpe⟩ := List.mem_map.mp h
    split at hpe
    · injection hpe with h1 h2
      exact h2.symm
    · rename_i hbeq
      exfalso
      apply hbeq
      rw [hpe]
      simp
  · rename_i hcon
    rcases List.mem_append.mp h with h2 | h2
    · exfalso
      apply hcon
      have hk : k ∈ d.map Prod.fst := List.mem_map.mpr ⟨(k, w), h2, rfl⟩
      simpa using hk
    · simp only [List.mem_singleton, Prod.mk.injEq] at h2
      exact h2.2

theorem mem_dictInsert_ne (d : List (String × PyVal)) (k : String) (v : PyVal)
    (k2 : String) (w : PyVal) (h : k2 ≠ k) :
    ((k2, w) ∈ dictInsert d k v) ↔ (k2, w) ∈ d := by
  unfold dictInsert
  split
  · constructor
    · intro hm
      obtain ⟨p, hp, hpe⟩ := List.mem_map.mp hm
      split at hpe
      · rename_i hbeq
        exfalso
        apply h
        injection hpe with h1 h2
        rw [← h1]
        simpa using hbeq
      · exact hpe ▸ hp
    · intro hm
      refine List.mem_map.mpr ⟨(k2, w), hm, ?_⟩
      rw [if_neg (by simpa using h)]
  · rw [List.mem_append]
    constructor
    · intro hm
      rcases hm with hm | hm
      · exact hm
      · simp only [List.mem_singleton] at hm
        injection hm with h1 h2
        exact absurd h1 h
    · exact Or.inl

/-- C10: whenever a client-side handler returns a dict, the client sends
it back with its `"type"` field set to `BROADCAST_RESPONSE` (= 11),
overwriting any type the handler supplied, and with the incoming packet's id
echoed into `"id"` whenever the incoming packet carried one; the stamping is
the same for every inbound packet type (the reply path never reads
`packet.type`).  A `None` return sends nothing and any other return raises. -/
theorem client_reply_stamping (id? : Option String) (d : List (String × PyVal))
    (pid : String) :
    (∃ out, call_handler_reply id? (.retDict d) = .send out
      ∧ ("type", .pyint (PacketType.BROADCAST_RESPONSE : Int)) ∈ out
      ∧ (∀ v, ("type", v) ∈ out → v = .pyint (PacketType.BROADCAST_RESPONSE : Int))
      ∧ (id? = some pid →
          ("id", .pystr pid) ∈ out ∧ ∀ v, ("id", v) ∈ out → v = .pystr pid))
  ∧ call_handler_reply id? .retNone = .noAction
  ∧ call_handler_reply id? .retOther = .raiseInvalidReturn := by
  refine ⟨⟨_, rfl, ?_, ?_, ?_⟩, rfl, rfl⟩
  · exact mem_dictInsert_self _ _ _
  · intro v hv
    exact mem_dictInsert_key _ _ _ _ hv
  · intro hid
    subst hid
    constructor
    · exact (mem_dictInsert_ne _ _ _ _ _ (by decide)).mpr (mem_dictInsert_self _ _ _)
    · intro v hv
      exact mem_dictInsert_key _ _ _ _ ((mem_dictInsert_ne _ _ _ _ _ (by decide)).mp hv)

/-- Witness for `client_reply_stamping`: an EVAL-style reply dict that even
carries its own conflicting `"type"` comes back stamped `BROADCAST_RESPONSE`
with the incoming id `"c3"` echoed. -/
theorem client_reply_stamping_witness :
    ∃ out, call_handler_reply (some "c3")
        (.retDict [("type", .pyint 6), ("result", .pystr "ok")]) = .send out
      ∧ ("type", .pyint (PacketType.BROADCAST_RESPONSE : Int)) ∈ out
      ∧ ("id", .pystr "c3") ∈ out := by
  obtain ⟨out, h1, h2, h3, h4⟩ := (client_reply_stamping (some "c3")
    [("type", .pyint 6), ("result", .pystr "ok")] "c3").1
  exact ⟨out, h1, h2, (h4 rfl).1⟩

end VillagerIPC
